import Mathlib

/-!
Verification of the ciphered-pattern-api repository.

The repository has two Python source files:
* `generate.py` — builds a signature → word-list index from raw word lists
  (`is_valid_word`, `get_pattern`, `process_line`, `process_single_file`, `main`);
* `main.py` — loads the serialized index and serves exact-signature and
  partial-word queries (`validate_pattern`, `matches_partial`,
  `validate_partial_word`, the `pattern` and `predict_partial` handlers).

Python strings are modelled as `List Char` (ASCII range, which covers the
SCOWL word-list data the program processes).  Python dicts are modelled as
association lists that preserve insertion order, mirroring CPython dict
semantics.  HTTP results are modelled as `Except Nat` with the numeric
status code (400 for a validation failure, 404 for not-found) as the error.
-/

/-! ## Basic helpers modelling Python string primitives -/

/-- The whitespace characters recognised by Python's `str.strip()` / `str.split()`
for ASCII input. -/
def pyIsSpace (c : Char) : Bool :=
  c = ' ' || c = '\t' || c = '\n' || c = '\r' || c = '\x0b' || c = '\x0c'

/-- Python `str.strip()` on ASCII input: drop leading and trailing whitespace. -/
def stripChars (s : List Char) : List Char :=
  ((s.dropWhile pyIsSpace).reverse.dropWhile pyIsSpace).reverse

/-- Python `str.upper()` on ASCII input. -/
def pyUpper (s : List Char) : List Char := s.map Char.toUpper

/-- Python `str.lower()` on ASCII input. -/
def pyLower (s : List Char) : List Char := s.map Char.toLower

/-- One pass of Python `str.split()` (split on whitespace runs, dropping empty
fields).  `cur` holds the characters of the token being read, in reverse. -/
def pySplitAux (cur : List Char) : List Char → List (List Char)
  | [] => if cur.isEmpty then [] else [cur.reverse]
  | c :: cs =>
    if pyIsSpace c then
      if cur.isEmpty then pySplitAux [] cs else cur.reverse :: pySplitAux [] cs
    else
      pySplitAux (c :: cur) cs

/-- Python `str.split()` with no arguments. -/
def pySplit (s : List Char) : List (List Char) := pySplitAux [] s

/-- Python `str.split(" ", 1)`: split at the first literal space, if any. -/
def splitOnce (s : List Char) : List (List Char) :=
  match s.dropWhile (fun c => !(c = ' ')) with
  | [] => [s]
  | _ :: rest => [s.takeWhile (fun c => !(c = ' ')), rest]

/-- Python `str.isdigit()` on ASCII input: nonempty and all decimal digits. -/
def pyIsDigitStr (s : List Char) : Bool := !s.isEmpty && s.all Char.isDigit

/-- Python `str.isalpha()` on ASCII input: nonempty and all letters. -/
def pyIsAlphaStr (s : List Char) : Bool := !s.isEmpty && s.all Char.isAlpha

/-- Code-point comparison of strings, as used by Python `<=` on `str`
(restricted to the ASCII range). -/
def strLe : List Char → List Char → Bool
  | [], _ => true
  | _ :: _, [] => false
  | a :: as, b :: bs =>
    if a.toNat < b.toNat then true
    else if b.toNat < a.toNat then false
    else strLe as bs

/-- First-occurrence deduplication keeping input order (the membership content
of Python `set(...)`, presented deterministically). -/
def uniqAux {α : Type} [DecidableEq α] (seen : List α) : List α → List α
  | [] => []
  | x :: xs => if x ∈ seen then uniqAux seen xs else x :: uniqAux (x :: seen) xs

/-- The distinct elements of a list in first-occurrence order. -/
def uniqList {α : Type} [DecidableEq α] (l : List α) : List α := uniqAux [] l

/-- Insert into a sorted list, before the first element that `x` may precede.
Together with `insSort` this is a stable insertion sort, which agrees with
Python's (stable) `sorted`. -/
def insertSorted {α : Type} (le : α → α → Bool) (x : α) : List α → List α
  | [] => [x]
  | y :: ys => if le x y then x :: y :: ys else y :: insertSorted le x ys

/-- Stable insertion sort: the model of Python `sorted` for a given key. -/
def insSort {α : Type} (le : α → α → Bool) : List α → List α
  | [] => []
  | x :: xs => insertSorted le x (insSort le xs)

/-- Python `sorted(list(set(ws)))` for a list of strings: the
lexicographically sorted list of the distinct elements. -/
def pySortedSet (ws : List (List Char)) : List (List Char) :=
  insSort strLe (uniqList ws)

/-- Comparison by string length, the key `len` used with Python `sorted`. -/
def lenLe (a b : List Char) : Bool := Nat.ble a.length b.length

/-! ## `main.py`: query-time validation and resolution -/

/-- The scanning loop of `validate_pattern`: every digit may exceed the
running maximum seen so far by at most 1. -/
def scanDigits (h : Nat) : List Char → Bool
  | [] => true
  | c :: cs =>
    if h + 1 < c.toNat - '0'.toNat then false
    else scanDigits (Nat.max h (c.toNat - '0'.toNat)) cs

/-- `main.py` `validate_pattern`: numeric, at most 20 characters, and no digit
skips past the running maximum plus one. -/
def validate_pattern (p : List Char) : Bool :=
  if !(pyIsDigitStr p) || 20 < p.length then false
  else scanDigits 0 p

/-- `main.py` `matches_partial` (called `matches_partial` in the source):
same length, and at every non-underscore position of the partial the word has
exactly that character. -/
def matches_partial_word (word p : List Char) : Bool :=
  if !(word.length = p.length) then false
  else (word.zip p).all fun e => e.2 = '_' || e.1 = e.2

/-- `main.py` `validate_partial_word`: nonempty, at most 20 characters, only
letters and underscores, and not all underscores. -/
def validate_partial_word (p : List Char) : Bool :=
  if p.isEmpty || 20 < p.length then false
  else if !(p.all fun c => c.isAlpha || c = '_') then false
  else if p.all (fun c => c = '_') then false
  else true

/-- One line of the serialized index, parsed as in the module-level loader of
`main.py`: `line.strip().split(" ", 1)` unpacked into a signature and the
whitespace-separated word list.  A line without a space after stripping makes
the unpacking (and hence the whole load) fail, modelled by `none`. -/
def parseIndexLine (line : List Char) : Option (List Char × List (List Char)) :=
  match splitOnce (stripChars line) with
  | [p, rest] => some (p, pySplit rest)
  | _ => none

/-- The module-level load of `main.py`: parse every line, failing the whole
load if any line is malformed.  Entries are kept in line order; duplicate
signatures are resolved by `pyDictGet` below, mirroring the dict
comprehension in which later lines overwrite earlier ones. -/
def loadPatterns : List (List Char) →
    Option (List (List Char × List (List Char)))
  | [] => some []
  | l :: ls =>
    match parseIndexLine l, loadPatterns ls with
    | some e, some rest => some (e :: rest)
    | _, _ => none

/-- Python dict lookup for a dict built from a list of key/value pairs by a
comprehension: the last binding of a key wins. -/
def pyDictGet {α : Type} (idx : List (List Char × α)) (k : List Char) : Option α :=
  match idx with
  | [] => none
  | e :: rest =>
    match pyDictGet rest k with
    | some v => some v
    | none => if e.1 = k then some e.2 else none

/-- The `/pattern/{pattern}` handler of `main.py`: HTTP 400 on a validation
failure, the stored list on a truthy lookup, HTTP 404 otherwise (including a
present key bound to an empty list, since `patterns.get(pattern)` is falsy
then). -/
def resolveExact (idx : List (List Char × List (List Char))) (p : List Char) :
    Except Nat (List (List Char)) :=
  if !(validate_pattern p) then .error 400
  else
    match pyDictGet idx p with
    | some (w :: ws) => .ok (w :: ws)
    | _ => .error 404

/-- The `/predict/{partial_word}` handler of `main.py` (`predict_partial` in
the source): uppercase the input, validate it, scan every word of every
signature group, deduplicate and sort the matches, and return 404 when the
result is empty. -/
def predict_partial_word (idx : List (List Char × List (List Char)))
    (pw : List Char) : Except Nat (List (List Char)) :=
  let up := pyUpper pw
  if !(validate_partial_word up) then .error 400
  else
    let ms := pySortedSet
      (idx.flatMap fun e => e.2.filter fun w => matches_partial_word w up)
    if ms.isEmpty then .error 404 else .ok ms

/-! ## `generate.py`: word validation, signature encoding, index build -/

/-- The consecutive-run loop of `is_valid_word`: scanning left to right, a run
of identical adjacent letters must never exceed `max_consecutive = 3`. -/
def runCheck (prev : Char) (cur : Nat) : List Char → Bool
  | [] => true
  | c :: cs =>
    if c = prev then
      if cur + 1 > 3 then false else runCheck c (cur + 1) cs
    else runCheck c 1 cs

/-- Lookup in the incrementally built `letter_counts` / `seen` association
lists (Python dict access `d.get(c)`). -/
def assocLookup (l : List (Char × Nat)) (c : Char) : Option Nat :=
  match l with
  | [] => none
  | e :: rest => if e.1 = c then some e.2 else assocLookup rest c

/-- Update of a Python dict entry `d[c] = n`, inserting at the end when the
key is new (CPython insertion order). -/
def assocSet (l : List (Char × Nat)) (c : Char) (n : Nat) : List (Char × Nat) :=
  match l with
  | [] => [(c, n)]
  | e :: rest => if e.1 = c then (e.1, n) :: rest else e :: assocSet rest c n

/-- The `letter_counts` loop of `is_valid_word`: fail as soon as some letter
has been seen more than `4` times. -/
def countsCheck (counts : List (Char × Nat)) : List Char → Bool
  | [] => true
  | c :: cs =>
    let n := (assocLookup counts c).getD 0 + 1
    if n > 4 then false else countsCheck (assocSet counts c n) cs

/-- `generate.py` `is_valid_word`, rule for rule:
length 1–20; alphabetic once apostrophes are removed; a single letter only if
it is `A` or `I` (upper-cased); not a single repeated letter; no apostrophe;
no run of more than 3 identical adjacent letters; no letter more than 4 times
in total. -/
def is_valid_word (word : List Char) : Bool :=
  if !(1 ≤ word.length && word.length ≤ 20) then false
  else if !(pyIsAlphaStr (word.filter fun c => !(c = '\''))) then false
  else if word.length = 1 && (pyUpper word = ['A'] || pyUpper word = ['I']) then true
  else if (uniqList (word.filter fun c => !(c = '\''))).length = 1 then false
  else if '\'' ∈ word then false
  else
    match word with
    | [] => true
    | c :: cs =>
      if !(runCheck c 1 cs) then false
      else if !(countsCheck [] word) then false
      else true

/-- The incrementally built `seen` dict of `get_pattern`: on first sight a
character is bound to `len(seen) + 1`; the emitted rank is the stored value. -/
def ranksAux (seen : List (Char × Nat)) : List Char → List Nat
  | [] => []
  | c :: cs =>
    match assocLookup seen c with
    | some r => r :: ranksAux seen cs
    | none => (seen.length + 1) :: ranksAux (seen ++ [(c, seen.length + 1)]) cs

/-- The final state of the `seen` dict of `get_pattern` after the whole word
has been scanned. -/
def seenFinal (seen : List (Char × Nat)) : List Char → List (Char × Nat)
  | [] => seen
  | c :: cs =>
    match assocLookup seen c with
    | some _ => seenFinal seen cs
    | none => seenFinal (seen ++ [(c, seen.length + 1)]) cs

/-- `generate.py` `get_pattern`: lower-case the word, assign each distinct
letter its first-occurrence rank starting at 1, and join the decimal
representations of the ranks with no separator. -/
def get_pattern (word : List Char) : List Char :=
  ((ranksAux [] (pyLower word)).map fun r => (Nat.repr r).data).flatten

/-- `generate.py` `process_line`: take the first whitespace-separated token of
the line, upper-case it, and keep it only if `is_valid_word` accepts it
(an empty line raises `IndexError`, caught and turned into `None`). -/
def process_line (line : List Char) : Option (List Char) :=
  match pySplit (stripChars line) with
  | [] => none
  | t :: _ => let w := pyUpper t; if is_valid_word w then some w else none

/-- The valid words contributed by one raw source, in line order (batching
into chunks of 1000 lines preserves this order and is semantically
transparent). -/
def fileWords (lines : List (List Char)) : List (List Char) :=
  lines.filterMap process_line

/-- `defaultdict(list)` access `d[p]`: the stored list, or `[]` for a missing
key.  Build-side dicts never hold duplicate keys, so first match suffices. -/
def lookupWords (d : List (List Char × List (List Char))) (p : List Char) :
    List (List Char) :=
  match d with
  | [] => []
  | e :: rest => if e.1 = p then e.2 else lookupWords rest p

/-- `defaultdict(list)` update `d[p].extend(ws)` (or `.append` for a
singleton): extend the existing entry in place, or create a new entry at the
end, preserving insertion order. -/
def dictExtend (d : List (List Char × List (List Char))) (p : List Char)
    (ws : List (List Char)) : List (List Char × List (List Char)) :=
  match d with
  | [] => [(p, ws)]
  | e :: rest => if e.1 = p then (e.1, e.2 ++ ws) :: rest else e :: dictExtend rest p ws

/-- The per-source `file_pattern_dict` of `process_single_file`: each valid
word is appended to the list of its signature. -/
def fileDict (lines : List (List Char)) : List (List Char × List (List Char)) :=
  (fileWords lines).foldl (fun d w => dictExtend d (get_pattern w) [w]) []

/-- Merging one completed per-source dict into the global dict:
`global_pattern_dict[pattern].extend(words)` for every entry. -/
def mergeDict (g d : List (List Char × List (List Char))) :
    List (List Char × List (List Char)) :=
  d.foldl (fun g e => dictExtend g e.1 e.2) g

/-- The `global_pattern_dict` of `main` after all sources have been processed
and merged (source completion modelled in list order; every statement proved
below is insensitive to that order). -/
def globalDict (files : List (List (List Char))) :
    List (List Char × List (List Char)) :=
  files.foldl (fun g f => mergeDict g (fileDict f)) []

/-- The normalization loop of `main`:
`global_pattern_dict[pattern] = sorted(list(set(...)))` for every signature. -/
def buildDict (files : List (List (List Char))) :
    List (List Char × List (List Char)) :=
  (globalDict files).map fun e => (e.1, pySortedSet e.2)

/-- The serialization sort key of `main`: `len(x[1][0]) if x[1] else 0`, the
length of the first word of the (lexicographically sorted) stored list. -/
def serKey (e : List Char × List (List Char)) : Nat :=
  match e.2 with
  | [] => 0
  | w :: _ => w.length

/-- The serialized index of `main`, as the ordered list of signature groups
written to `output/patterns.txt`: groups sorted by `serKey`, and each group's
words re-sorted by length (Python's stable `sorted(words, key=len)`). -/
def serializeIndex (files : List (List (List Char))) :
    List (List Char × List (List Char)) :=
  (insSort (fun a b => Nat.ble (serKey a) (serKey b)) (buildDict files)).map
    fun e => (e.1, insSort lenLe e.2)

/-! ## Generic lemmas: stable insertion sort and deduplication -/

theorem mem_insertSorted {α : Type} (le : α → α → Bool) (x a : α) :
    ∀ l : List α, a ∈ insertSorted le x l ↔ a = x ∨ a ∈ l := by
  intro l
  induction l with
  | nil => simp [insertSorted]
  | cons y ys ih =>
    by_cases h : le x y = true
    · simp [insertSorted, h]
    · simp [insertSorted, h, ih]; tauto

theorem perm_insertSorted {α : Type} (le : α → α → Bool) (x : α) :
    ∀ l : List α, (insertSorted le x l).Perm (x :: l) := by
  intro l
  induction l with
  | nil => simp [insertSorted]
  | cons y ys ih =>
    by_cases h : le x y = true
    · simp [insertSorted, h]
    · simp only [insertSorted, h, if_false]
      exact (ih.cons y).trans (List.Perm.swap x y ys)

theorem perm_insSort {α : Type} (le : α → α → Bool) :
    ∀ l : List α, (insSort le l).Perm l := by
  intro l
  induction l with
  | nil => simp [insSort]
  | cons x xs ih => exact (perm_insertSorted le x (insSort le xs)).trans (ih.cons x)

theorem mem_insSort {α : Type} (le : α → α → Bool) (a : α) (l : List α) :
    a ∈ insSort le l ↔ a ∈ l := (perm_insSort le l).mem_iff

theorem nodup_insSort {α : Type} (le : α → α → Bool) {l : List α}
    (h : l.Nodup) : (insSort le l).Nodup := ((perm_insSort le l).nodup_iff).mpr h

theorem pairwise_insertSorted {α : Type} {le : α → α → Bool}
    (htot : ∀ a b, le a b = true ∨ le b a = true)
    (htrans : ∀ a b c, le a b = true → le b c = true → le a c = true)
    (x : α) : ∀ l : List α, l.Pairwise (fun a b => le a b = true) →
      (insertSorted le x l).Pairwise (fun a b => le a b = true) := by
  intro l
  induction l with
  | nil => simp [insertSorted]
  | cons y ys ih =>
    intro hp
    rcases List.pairwise_cons.mp hp with ⟨hy, hys⟩
    by_cases h : le x y = true
    · simp only [insertSorted, h, if_true]
      refine List.pairwise_cons.mpr ⟨?_, hp⟩
      intro b hb
      rcases List.mem_cons.mp hb with hb | hb
      · subst hb; exact h
      · exact htrans x y b h (hy b hb)
    · simp only [insertSorted, h, if_false]
      refine List.pairwise_cons.mpr ⟨?_, ih hys⟩
      intro b hb
      rcases (mem_insertSorted le x b ys).mp hb with hbx | hbys
      · rw [hbx]
        rcases htot x y with h' | h'
        · exact absurd h' h
        · exact h'
      · exact hy b hbys

theorem pairwise_insSort {α : Type} {le : α → α → Bool}
    (htot : ∀ a b, le a b = true ∨ le b a = true)
    (htrans : ∀ a b c, le a b = true → le b c = true → le a c = true) :
    ∀ l : List α, (insSort le l).Pairwise (fun a b => le a b = true) := by
  intro l
  induction l with
  | nil => simp [insSort]
  | cons x xs ih => exact pairwise_insertSorted htot htrans x (insSort le xs) ih

theorem mem_uniqAux {α : Type} [DecidableEq α] (a : α) :
    ∀ (l seen : List α), a ∈ uniqAux seen l ↔ a ∈ l ∧ a ∉ seen := by
  intro l
  induction l with
  | nil => simp [uniqAux]
  | cons x xs ih =>
    intro seen
    by_cases h : x ∈ seen
    · rw [uniqAux, if_pos h, ih]
      constructor
      · rintro ⟨h1, h2⟩; exact ⟨List.mem_cons_of_mem x h1, h2⟩
      · rintro ⟨h1, h2⟩
        rcases List.mem_cons.mp h1 with h1 | h1
        · subst h1; exact absurd h h2
        · exact ⟨h1, h2⟩
    · rw [uniqAux, if_neg h]
      constructor
      · intro hm
        rcases List.mem_cons.mp hm with hm | hm
        · subst hm; exact ⟨List.mem_cons_self _ _, h⟩
        · rcases (ih (x :: seen)).mp hm with ⟨h1, h2⟩
          exact ⟨List.mem_cons_of_mem x h1, fun hs => h2 (List.mem_cons_of_mem x hs)⟩
      · rintro ⟨h1, h2⟩
        rcases List.mem_cons.mp h1 with h1 | h1
        · subst h1; exact List.mem_cons_self a _
        · by_cases hax : a = x
          · subst hax; exact List.mem_cons_self a _
          · refine List.mem_cons_of_mem _ ((ih (x :: seen)).mpr ⟨h1, fun hs => ?_⟩)
            rcases List.mem_cons.mp hs with hs | hs
            · exact hax hs
            · exact h2 hs

theorem nodup_uniqAux {α : Type} [DecidableEq α] :
    ∀ (l seen : List α), (uniqAux seen l).Nodup := by
  intro l
  induction l with
  | nil => intro seen; simp [uniqAux]
  | cons x xs ih =>
    intro seen
    by_cases h : x ∈ seen
    · rw [uniqAux, if_pos h]; exact ih seen
    · rw [uniqAux, if_neg h]
      refine List.nodup_cons.mpr ⟨?_, ih (x :: seen)⟩
      intro hm
      exact ((mem_uniqAux x xs (x :: seen)).mp hm).2 (List.mem_cons_self x seen)

theorem mem_uniqList {α : Type} [DecidableEq α] (a : α) (l : List α) :
    a ∈ uniqList l ↔ a ∈ l := by
  rw [uniqList, mem_uniqAux]; simp

theorem nodup_uniqList {α : Type} [DecidableEq α] (l : List α) :
    (uniqList l).Nodup := nodup_uniqAux l []

theorem strLe_refl (a : List Char) : strLe a a = true := by
  induction a with
  | nil => rfl
  | cons c cs ih => simp [strLe, ih]

theorem strLe_total : ∀ a b : List Char, strLe a b = true ∨ strLe b a = true := by
  intro a
  induction a with
  | nil => intro b; left; rfl
  | cons c cs ih =>
    intro b
    cases b with
    | nil => right; rfl
    | cons d ds =>
      rcases Nat.lt_trichotomy c.toNat d.toNat with h | h | h
      · left; simp [strLe, h]
      · have h1 : ¬ c.toNat < d.toNat := by omega
        have h2 : ¬ d.toNat < c.toNat := by omega
        rcases ih ds with h3 | h3
        · left; simp [strLe, h1, h2, h3]
        · right; simp [strLe, h1, h2, h3]
      · right; simp [strLe, h]

theorem strLe_trans : ∀ a b c : List Char,
    strLe a b = true → strLe b c = true → strLe a c = true := by
  intro a
  induction a with
  | nil => intro b c _ _; rfl
  | cons x xs ih =>
    intro b c hab hbc
    cases b with
    | nil => simp [strLe] at hab
    | cons y ys =>
      cases c with
      | nil => simp [strLe] at hbc
      | cons z zs =>
        rw [strLe] at hab hbc ⊢
        by_cases hxy : x.toNat < y.toNat
        · by_cases hyz : y.toNat < z.toNat
          · have : x.toNat < z.toNat := by omega
            simp [this]
          · by_cases hzy : z.toNat < y.toNat
            · simp [hyz, hzy] at hbc
            · have : x.toNat < z.toNat := by omega
              simp [this]
        · by_cases hyx : y.toNat < x.toNat
          · simp [hxy, hyx] at hab
          · have hxyeq : x.toNat = y.toNat := by omega
            by_cases hyz : y.toNat < z.toNat
            · have : x.toNat < z.toNat := by omega
              simp [this]
            · by_cases hzy : z.toNat < y.toNat
              · simp [hyz, hzy] at hbc
              · have h1 : ¬ x.toNat < z.toNat := by omega
                have h2 : ¬ z.toNat < x.toNat := by omega
                simp only [hxy, hyx, if_false] at hab
                simp only [hyz, hzy, if_false] at hbc
                simp [h1, h2, ih ys zs hab hbc]

theorem char_eq_of_toNat_eq {a b : Char} (h : a.toNat = b.toNat) : a = b :=
  Char.eq_of_val_eq (UInt32.ext h)

theorem strLe_antisymm : ∀ a b : List Char,
    strLe a b = true → strLe b a = true → a = b := by
  intro a
  induction a with
  | nil =>
    intro b _ hba
    cases b with
    | nil => rfl
    | cons d ds => simp [strLe] at hba
  | cons c cs ih =>
    intro b hab hba
    cases b with
    | nil => simp [strLe] at hab
    | cons d ds =>
      rw [strLe] at hab hba
      by_cases hcd : c.toNat < d.toNat
      · have h1 : ¬ d.toNat < c.toNat := by omega
        simp [hcd, h1] at hba
      · by_cases hdc : d.toNat < c.toNat
        · simp [hcd, hdc] at hab
        · have : c = d := char_eq_of_toNat_eq (by omega)
          subst this
          simp only [hcd, hdc, if_false] at hab hba
          rw [ih ds hab hba]

theorem sorted_pySortedSet (ws : List (List Char)) :
    (pySortedSet ws).Pairwise (fun a b => strLe a b = true) :=
  pairwise_insSort strLe_total strLe_trans (uniqList ws)

theorem nodup_pySortedSet (ws : List (List Char)) : (pySortedSet ws).Nodup :=
  nodup_insSort strLe (nodup_uniqList ws)

theorem mem_pySortedSet (a : List Char) (ws : List (List Char)) :
    a ∈ pySortedSet ws ↔ a ∈ ws := by
  rw [pySortedSet, mem_insSort, mem_uniqList]

/-- `sorted(list(set(·)))` is canonical: it depends only on the membership
content of its input. -/
theorem pySortedSet_ext {l l' : List (List Char)}
    (h : ∀ a, a ∈ l ↔ a ∈ l') : pySortedSet l = pySortedSet l' := by
  have hm : ∀ a, a ∈ pySortedSet l ↔ a ∈ pySortedSet l' := by
    intro a; rw [mem_pySortedSet, mem_pySortedSet]; exact h a
  have hperm : (pySortedSet l).Perm (pySortedSet l') :=
    (List.perm_ext_iff_of_nodup (nodup_pySortedSet l) (nodup_pySortedSet l')).mpr hm
  haveI : IsAntisymm (List Char) (fun a b => strLe a b = true) :=
    ⟨fun a b => strLe_antisymm a b⟩
  exact List.eq_of_perm_of_sorted hperm (sorted_pySortedSet l) (sorted_pySortedSet l')


/-! ## Digit-scan contiguity (claim C5) -/

theorem nat_max_cases (a b : Nat) : Nat.max a b = a ∨ Nat.max a b = b := by
  rcases Nat.le_total a b with h | h
  · right; exact Nat.max_eq_right h
  · left; exact Nat.max_eq_left h

theorem scanDigits_contiguous :
    ∀ (s : List Char) (h : Nat), scanDigits h s = true →
      ∀ c ∈ s, ∀ m, m ≤ c.toNat - '0'.toNat → h < m →
        ∃ d ∈ s, d.toNat - '0'.toNat = m := by
  intro s
  induction s with
  | nil => intro h _ c hc; simp at hc
  | cons c0 cs ih =>
    intro h hsc c hc m hm hhm
    rw [scanDigits] at hsc
    by_cases hv : h + 1 < c0.toNat - '0'.toNat
    · rw [if_pos hv] at hsc; cases hsc
    · rw [if_neg hv] at hsc
      rcases List.mem_cons.mp hc with hc | hc
      · rw [hc] at hm
        have : c0.toNat - '0'.toNat = m := by omega
        exact ⟨c0, List.mem_cons_self c0 cs, this⟩
      · by_cases hmx : Nat.max h (c0.toNat - '0'.toNat) < m
        · rcases ih (Nat.max h (c0.toNat - '0'.toNat)) hsc c hc m hm hmx with ⟨d, hd, hdv⟩
          exact ⟨d, List.mem_cons_of_mem c0 hd, hdv⟩
        · have : c0.toNat - '0'.toNat = m := by
            rcases nat_max_cases h (c0.toNat - '0'.toNat) with hmc | hmc <;> omega
          exact ⟨c0, List.mem_cons_self c0 cs, this⟩

theorem validate_pattern_parts {p : List Char} (h : validate_pattern p = true) :
    pyIsDigitStr p = true ∧ p.length ≤ 20 ∧ scanDigits 0 p = true := by
  rw [validate_pattern] at h
  by_cases hd : pyIsDigitStr p = true
  · by_cases hl : 20 < p.length
    · rw [if_pos (by simp [hd, hl])] at h
      cases h
    · rw [if_neg (by simp [hd, hl])] at h
      exact ⟨hd, by omega, h⟩
  · have hd' : pyIsDigitStr p = false := by
      revert hd; cases pyIsDigitStr p <;> simp
    rw [if_pos (by simp [hd'])] at h
    cases h

/-! ## Rank machinery for `get_pattern` (claims C1 and C6) -/

/-- Index of the first occurrence of a character in a list (`0`-based). -/
def idxOf (a : Char) : List Char → Nat
  | [] => 0
  | x :: xs => if x = a then 0 else idxOf a xs + 1

theorem idxOf_append_left (a : Char) :
    ∀ l1 l2 : List Char, a ∈ l1 → idxOf a (l1 ++ l2) = idxOf a l1 := by
  intro l1
  induction l1 with
  | nil => intro l2 h; simp at h
  | cons x xs ih =>
    intro l2 h
    by_cases hx : x = a
    · simp [idxOf, hx]
    · rcases List.mem_cons.mp h with h | h
      · exact absurd h.symm hx
      · simp [idxOf, hx, ih l2 h]

theorem idxOf_append_right (a : Char) :
    ∀ l1 l2 : List Char, a ∉ l1 → idxOf a (l1 ++ l2) = l1.length + idxOf a l2 := by
  intro l1
  induction l1 with
  | nil => intro l2 _; simp
  | cons x xs ih =>
    intro l2 h
    have hx : ¬ x = a := fun hc => h (by rw [hc]; exact List.mem_cons_self a xs)
    have hxs : a ∉ xs := fun hc => h (List.mem_cons_of_mem x hc)
    simp only [List.cons_append, idxOf, hx, if_false, List.length_cons, List.append_eq]
    rw [ih l2 hxs]
    omega

/-- The values stored in the `seen` dict of `get_pattern` are consecutive,
starting at `s`, in insertion order. -/
def valsFrom (s : Nat) : List (Char × Nat) → Prop
  | [] => True
  | e :: rest => e.2 = s ∧ valsFrom (s + 1) rest

theorem valsFrom_append :
    ∀ (l1 l2 : List (Char × Nat)) (s : Nat),
      valsFrom s (l1 ++ l2) ↔ valsFrom s l1 ∧ valsFrom (s + l1.length) l2 := by
  intro l1
  induction l1 with
  | nil => intro l2 s; simp [valsFrom]
  | cons e t ih =>
    intro l2 s
    simp only [List.cons_append, valsFrom, List.append_eq]
    rw [ih l2 (s + 1)]
    have hn : s + 1 + t.length = s + (t.length + 1) := by omega
    simp only [List.length_cons, hn, and_assoc]

theorem valsFrom_bound {c : Char} {r : Nat} :
    ∀ (l : List (Char × Nat)) (s : Nat), valsFrom s l → (c, r) ∈ l →
      s ≤ r ∧ r < s + l.length := by
  intro l
  induction l with
  | nil => intro s _ h; simp at h
  | cons e t ih =>
    intro s hv hm
    rcases hv with ⟨he, ht⟩
    rcases List.mem_cons.mp hm with hm | hm
    · have hr : r = e.2 := by rw [← hm]
      simp only [List.length_cons]
      omega
    · have := ih (s + 1) ht hm
      simp only [List.length_cons]
      omega

theorem assocLookup_mem {c : Char} {r : Nat} :
    ∀ l : List (Char × Nat), assocLookup l c = some r → (c, r) ∈ l := by
  intro l
  induction l with
  | nil => intro h; cases h
  | cons e t ih =>
    intro h
    by_cases he : e.1 = c
    · rw [assocLookup, if_pos he] at h
      have hr : r = e.2 := (Option.some.inj h).symm
      have : (c, r) = e := by
        cases e with
        | mk k v =>
          simp only at he hr
          rw [he, hr]
      rw [this]
      exact List.mem_cons_self e t
    · rw [assocLookup, if_neg he] at h
      exact List.mem_cons_of_mem e (ih h)

theorem assocLookup_none {c : Char} :
    ∀ l : List (Char × Nat), assocLookup l c = none ↔ c ∉ l.map (fun e => e.1) := by
  intro l
  induction l with
  | nil => simp [assocLookup]
  | cons e t ih =>
    by_cases he : e.1 = c
    · rw [assocLookup, if_pos he]
      simp [he]
    · rw [assocLookup, if_neg he]
      simp only [List.map_cons, List.mem_cons, ih]
      constructor
      · intro h hor
        rcases hor with h1 | h1
        · exact he h1.symm
        · exact h h1
      · intro h h1
        exact h (Or.inr h1)

theorem assocLookup_rank {c : Char} {r : Nat} :
    ∀ (l : List (Char × Nat)) (s : Nat), valsFrom s l →
      assocLookup l c = some r → r = s + idxOf c (l.map (fun e => e.1)) := by
  intro l
  induction l with
  | nil => intro s _ h; cases h
  | cons e t ih =>
    intro s hv h
    rcases hv with ⟨he, ht⟩
    by_cases hk : e.1 = c
    · rw [assocLookup, if_pos hk] at h
      have : r = e.2 := (Option.some.inj h).symm
      simp [idxOf, hk, this, he]
    · rw [assocLookup, if_neg hk] at h
      have := ih (s + 1) ht h
      simp only [List.map_cons, idxOf, hk, if_false]
      omega

theorem seenFinal_suffix :
    ∀ (cs : List Char) (seen : List (Char × Nat)),
      ∃ t, seenFinal seen cs = seen ++ t := by
  intro cs
  induction cs with
  | nil => intro seen; exact ⟨[], by simp [seenFinal]⟩
  | cons c cs ih =>
    intro seen
    rw [seenFinal]
    cases hl : assocLookup seen c with
    | some r => exact ih seen
    | none =>
      rcases ih (seen ++ [(c, seen.length + 1)]) with ⟨t, ht⟩
      exact ⟨(c, seen.length + 1) :: t, by rw [ht, List.append_assoc]; rfl⟩

theorem seenFinal_length_le (cs : List Char) (seen : List (Char × Nat)) :
    seen.length ≤ (seenFinal seen cs).length := by
  rcases seenFinal_suffix cs seen with ⟨t, ht⟩
  rw [ht, List.length_append]
  omega

theorem valsFrom_seenFinal :
    ∀ (cs : List Char) (seen : List (Char × Nat)),
      valsFrom 1 seen → valsFrom 1 (seenFinal seen cs) := by
  intro cs
  induction cs with
  | nil => intro seen h; exact h
  | cons c cs ih =>
    intro seen h
    rw [seenFinal]
    cases hl : assocLookup seen c with
    | some r => exact ih seen h
    | none =>
      refine ih (seen ++ [(c, seen.length + 1)]) ?_
      rw [valsFrom_append]
      refine ⟨h, ?_, trivial⟩
      omega

theorem ranksAux_length :
    ∀ (cs : List Char) (seen : List (Char × Nat)),
      (ranksAux seen cs).length = cs.length := by
  intro cs
  induction cs with
  | nil => intro seen; rfl
  | cons c cs ih =>
    intro seen
    rw [ranksAux]
    cases hl : assocLookup seen c with
    | some r => simp [ih]
    | none => simp [ih]

theorem ranksAux_bound :
    ∀ (cs : List Char) (seen : List (Char × Nat)), valsFrom 1 seen →
      ∀ r ∈ ranksAux seen cs, 1 ≤ r ∧ r ≤ (seenFinal seen cs).length := by
  intro cs
  induction cs with
  | nil => intro seen _ r hr; cases hr
  | cons c cs ih =>
    intro seen hv r hr
    rw [ranksAux] at hr
    cases hl : assocLookup seen c with
    | some r0 =>
      rw [hl] at hr
      simp only [seenFinal, hl]
      rcases List.mem_cons.mp hr with hr | hr
      · have hm := assocLookup_mem seen hl
        rw [hr]
        have hb := valsFrom_bound seen 1 hv hm
        have := seenFinal_length_le cs seen
        omega
      · exact ih seen hv r hr
    | none =>
      rw [hl] at hr
      simp only [seenFinal, hl]
      rcases List.mem_cons.mp hr with hr | hr
      · rw [hr]
        have h1 := seenFinal_length_le cs (seen ++ [(c, seen.length + 1)])
        rw [List.length_append] at h1
        simp only [List.length_cons, List.length_nil] at h1
        omega
      · refine ih (seen ++ [(c, seen.length + 1)]) ?_ r hr
        rw [valsFrom_append]
        exact ⟨hv, by omega, trivial⟩

/-- The Nat-level counterpart of the `validate_pattern` scanning loop. -/
def scanRanks (h : Nat) : List Nat → Bool
  | [] => true
  | r :: rs => if h + 1 < r then false else scanRanks (Nat.max h r) rs

theorem scanRanks_ranksAux :
    ∀ (cs : List Char) (seen : List (Char × Nat)), valsFrom 1 seen →
      scanRanks seen.length (ranksAux seen cs) = true := by
  intro cs
  induction cs with
  | nil => intro seen _; rfl
  | cons c cs ih =>
    intro seen hv
    rw [ranksAux]
    cases hl : assocLookup seen c with
    | some r0 =>
      have hb := valsFrom_bound seen 1 hv (assocLookup_mem seen hl)
      rw [scanRanks, if_neg (by omega)]
      have hmax : Nat.max seen.length r0 = seen.length := Nat.max_eq_left (by omega)
      rw [hmax]
      exact ih seen hv
    | none =>
      rw [scanRanks, if_neg (by omega)]
      have hmax : Nat.max seen.length (seen.length + 1) = seen.length + 1 :=
        Nat.max_eq_right (by omega)
      rw [hmax]
      have hrec := ih (seen ++ [(c, seen.length + 1)])
        (by rw [valsFrom_append]; exact ⟨hv, by omega, trivial⟩)
      simpa using hrec

/-- Decimal representation facts for single-digit ranks. -/
theorem repr_digit (r : Nat) (h1 : 1 ≤ r) (h2 : r ≤ 9) :
    (Nat.repr r).data = [Char.ofNat (48 + r)] ∧
    (Char.ofNat (48 + r)).isDigit = true ∧
    (Char.ofNat (48 + r)).toNat - '0'.toNat = r := by
  interval_cases r <;> exact ⟨by decide, by decide, by decide⟩

theorem flatten_single_digits :
    ∀ rs : List Nat, (∀ r ∈ rs, 1 ≤ r ∧ r ≤ 9) →
      ((rs.map fun r => (Nat.repr r).data).flatten =
        rs.map fun r => Char.ofNat (48 + r)) := by
  intro rs
  induction rs with
  | nil => intro _; rfl
  | cons r rest ih =>
    intro h
    have hr := h r (List.mem_cons_self r rest)
    simp only [List.map_cons, List.flatten_cons, (repr_digit r hr.1 hr.2).1]
    rw [ih fun a ha => h a (List.mem_cons_of_mem r ha)]
    rfl

theorem scanDigits_map :
    ∀ (rs : List Nat) (h : Nat), (∀ r ∈ rs, 1 ≤ r ∧ r ≤ 9) →
      scanDigits h (rs.map fun r => Char.ofNat (48 + r)) = scanRanks h rs := by
  intro rs
  induction rs with
  | nil => intro h _; rfl
  | cons r rest ih =>
    intro h hb
    have hr := hb r (List.mem_cons_self r rest)
    have hv := (repr_digit r hr.1 hr.2).2.2
    simp only [List.map_cons, scanDigits, scanRanks, hv]
    by_cases hc : h + 1 < r
    · rw [if_pos hc, if_pos hc]
    · rw [if_neg hc, if_neg hc]
      exact ih (Nat.max h r) fun a ha => hb a (List.mem_cons_of_mem r ha)

theorem uniqAux_congr {α : Type} [DecidableEq α] :
    ∀ (cs s1 s2 : List α), (∀ x, x ∈ s1 ↔ x ∈ s2) →
      uniqAux s1 cs = uniqAux s2 cs := by
  intro cs
  induction cs with
  | nil => intro s1 s2 _; rfl
  | cons x xs ih =>
    intro s1 s2 h
    by_cases hx : x ∈ s1
    · rw [uniqAux, if_pos hx, uniqAux, if_pos ((h x).mp hx)]
      exact ih s1 s2 h
    · rw [uniqAux, if_neg hx, uniqAux, if_neg (fun hc => hx ((h x).mpr hc))]
      refine congrArg (x :: ·) (ih (x :: s1) (x :: s2) fun a => ?_)
      simp only [List.mem_cons]
      rcases h a with ⟨h1, h2⟩
      constructor
      · rintro (ha | ha)
        · exact Or.inl ha
        · exact Or.inr (h1 ha)
      · rintro (ha | ha)
        · exact Or.inl ha
        · exact Or.inr (h2 ha)

theorem mem_keys_of_lookup {seen : List (Char × Nat)} {c : Char} {r : Nat}
    (h : assocLookup seen c = some r) : c ∈ seen.map (fun e => e.1) := by
  by_contra hc
  rw [(assocLookup_none seen).mpr hc] at h
  cases h

theorem keys_seenFinal :
    ∀ (cs : List Char) (seen : List (Char × Nat)),
      (seenFinal seen cs).map (fun e => e.1) =
        seen.map (fun e => e.1) ++ uniqAux (seen.map (fun e => e.1)) cs := by
  intro cs
  induction cs with
  | nil => intro seen; simp [seenFinal, uniqAux]
  | cons c cs ih =>
    intro seen
    cases hl : assocLookup seen c with
    | some r =>
      have hm : c ∈ seen.map (fun e => e.1) := mem_keys_of_lookup hl
      simp only [seenFinal, hl]
      rw [ih seen, uniqAux, if_pos hm]
    | none =>
      have hm : c ∉ seen.map (fun e => e.1) := (assocLookup_none seen).mp hl
      simp only [seenFinal, hl]
      rw [ih (seen ++ [(c, seen.length + 1)]), uniqAux, if_neg hm]
      have hk : (seen ++ [(c, seen.length + 1)]).map (fun e => e.1) =
          seen.map (fun e => e.1) ++ [c] := by simp
      rw [hk]
      rw [uniqAux_congr cs (seen.map (fun e => e.1) ++ [c]) (c :: seen.map (fun e => e.1))
        (fun a => by simp [List.mem_append, List.mem_cons]; tauto)]
      rw [List.append_assoc]
      rfl

theorem ranksAux_get? :
    ∀ (cs : List Char) (seen : List (Char × Nat)), valsFrom 1 seen → ∀ i : Nat,
      List.get? (ranksAux seen cs) i =
        (List.get? cs i).map
          (fun c => idxOf c ((seenFinal seen cs).map (fun e => e.1)) + 1) := by
  intro cs
  induction cs with
  | nil => intro seen _ i; simp [ranksAux]
  | cons c cs ih =>
    intro seen hv i
    cases hl : assocLookup seen c with
    | some r0 =>
      have hm : c ∈ seen.map (fun e => e.1) := mem_keys_of_lookup hl
      simp only [ranksAux, seenFinal, hl]
      cases i with
      | zero =>
        simp only [List.get?_cons_zero, Option.map_some']
        rcases seenFinal_suffix cs seen with ⟨t, ht⟩
        rw [ht, List.map_append, idxOf_append_left c _ _ hm]
        have hrk := assocLookup_rank seen 1 hv hl
        rw [hrk, Nat.add_comm]
      | succ n =>
        simp only [List.get?_cons_succ]
        exact ih seen hv n
    | none =>
      have hm : c ∉ seen.map (fun e => e.1) := (assocLookup_none seen).mp hl
      simp only [ranksAux, seenFinal, hl]
      cases i with
      | zero =>
        simp only [List.get?_cons_zero, Option.map_some']
        rcases seenFinal_suffix cs (seen ++ [(c, seen.length + 1)]) with ⟨t, ht⟩
        rw [ht, List.map_append, List.map_append,
          idxOf_append_left c _ _ (by simp),
          idxOf_append_right c _ _ hm]
        simp [idxOf]
      | succ n =>
        simp only [List.get?_cons_succ]
        refine ih (seen ++ [(c, seen.length + 1)]) ?_ n
        rw [valsFrom_append]
        exact ⟨hv, by omega, trivial⟩

theorem is_valid_word_length {w : List Char} (h : is_valid_word w = true) :
    1 ≤ w.length ∧ w.length ≤ 20 := by
  rw [is_valid_word.eq_def] at h
  cases hb : (decide (1 ≤ w.length) && decide (w.length ≤ 20)) with
  | true =>
    rw [Bool.and_eq_true, decide_eq_true_eq, decide_eq_true_eq] at hb
    exact hb
  | false =>
    rw [hb] at h
    simp at h

/-- The distinct lower-cased letters of a word are at most `9`: the regime in
which every rank of `get_pattern` is a single decimal digit. -/
def fewDistinct (t : List Char) : Prop := (uniqList (pyLower t)).length ≤ 9

theorem keys_seenFinal_nil (cs : List Char) :
    (seenFinal [] cs).map (fun e => e.1) = uniqList cs := by
  rw [keys_seenFinal cs []]
  rfl

theorem seenFinal_nil_length {t : List Char} (hd : fewDistinct t) :
    (seenFinal [] (pyLower t)).length ≤ 9 := by
  have h := congrArg List.length (keys_seenFinal_nil (pyLower t))
  rw [List.length_map] at h
  rw [fewDistinct] at hd
  omega

theorem ranks_bound9 {t : List Char} (hd : fewDistinct t) :
    ∀ r ∈ ranksAux [] (pyLower t), 1 ≤ r ∧ r ≤ 9 := by
  intro r hr
  have hb := ranksAux_bound (pyLower t) [] trivial r hr
  have h9 := seenFinal_nil_length hd
  omega

theorem get_pattern_eq_map {t : List Char} (hd : fewDistinct t) :
    get_pattern t = (ranksAux [] (pyLower t)).map (fun r => Char.ofNat (48 + r)) := by
  rw [get_pattern]
  exact flatten_single_digits _ (ranks_bound9 hd)

theorem get_pattern_length {t : List Char} (hd : fewDistinct t) :
    (get_pattern t).length = t.length := by
  rw [get_pattern_eq_map hd, List.length_map, ranksAux_length, pyLower, List.length_map]

theorem idxOf_lt_length (a : Char) :
    ∀ l : List Char, a ∈ l → idxOf a l < l.length := by
  intro l
  induction l with
  | nil => intro h; cases h
  | cons x xs ih =>
    intro h
    by_cases hx : x = a
    · simp [idxOf, hx]
    · rcases List.mem_cons.mp h with h | h
      · exact absurd h.symm hx
      · simp only [idxOf, hx, if_false, List.length_cons]
        exact Nat.succ_lt_succ (ih h)

theorem get_pattern_digits {t : List Char} (hd : fewDistinct t) :
    ∀ c ∈ get_pattern t, c.isDigit = true := by
  intro c hc
  rw [get_pattern_eq_map hd] at hc
  rcases List.mem_map.mp hc with ⟨r, hr, hrc⟩
  rw [← hrc]
  exact (repr_digit r ((ranks_bound9 hd) r hr).1 ((ranks_bound9 hd) r hr).2).2.1

/-! ## Claim C1 -/

/-- C1, counterexample: the claim "`validate_pattern (get_pattern t)` holds for
every Validator-accepted token `t`" is false as stated.  The valid word
`ABCDEFGHIJKLMNOPQRST` (20 distinct letters) has a 31-character signature
(ranks 10–20 take two digits each), which `validate_pattern` rejects for
exceeding 20 characters. -/
theorem c1_counterexample :
    is_valid_word (("ABCDEFGHIJKLMNOPQRST").data) = true ∧
    validate_pattern (get_pattern (("ABCDEFGHIJKLMNOPQRST").data)) = false := by
  constructor
  · decide
  · decide

/-- C1, amended: for every token accepted by the Word Validator whose distinct
(lower-cased) letters number at most 9 — so that every rank is a single
decimal digit — the query-time validator accepts the token's signature. -/
theorem c1_theorem (t : List Char) (hv : is_valid_word t = true)
    (hd : fewDistinct t) : validate_pattern (get_pattern t) = true := by
  have hlen := is_valid_word_length hv
  have hb9 := ranks_bound9 hd
  have hmap := get_pattern_eq_map hd
  have hlength := get_pattern_length hd
  have hdig : pyIsDigitStr (get_pattern t) = true := by
    rw [pyIsDigitStr, Bool.and_eq_true]
    constructor
    · cases hne : get_pattern t with
      | nil => rw [hne] at hlength; simp at hlength; omega
      | cons c rest => rfl
    · rw [List.all_eq_true]
      intro x hx
      exact get_pattern_digits hd x hx
  rw [validate_pattern]
  have hcond : (!(pyIsDigitStr (get_pattern t)) ||
      decide (20 < (get_pattern t).length)) = false := by
    rw [hdig, hlength]
    simp only [Bool.not_true, Bool.false_or]
    exact decide_eq_false (by omega)
  rw [if_neg (by rw [hcond]; exact Bool.false_ne_true)]
  rw [hmap, scanDigits_map _ 0 hb9]
  exact scanRanks_ranksAux (pyLower t) [] trivial

/-- C1, witness: the amended theorem applied to the accepted word `HELLO`. -/
theorem c1_witness :
    is_valid_word (("HELLO").data) = true ∧ fewDistinct (("HELLO").data) ∧
    validate_pattern (get_pattern (("HELLO").data)) = true :=
  ⟨by decide, by rw [fewDistinct]; decide,
    c1_theorem _ (by decide) (by rw [fewDistinct]; decide)⟩

/-! ## Claim C4 -/

/-- C4, counterexample: `is_valid_word "BBC"` does not return `false`; the
validator of `generate.py` contains no denylist check at all. -/
theorem c4_counterexample : ¬ is_valid_word (("BBC").data) = false := by decide

/-- C4, amended: the Word Validator has no acronym denylist.  `BBC` and
`NASA` are accepted; `WWW` is rejected, but only by the
single-repeated-letter rule, not by any denylist. -/
theorem c4_theorem :
    is_valid_word (("BBC").data) = true ∧
    is_valid_word (("NASA").data) = true ∧
    is_valid_word (("WWW").data) = false := by
  refine ⟨by decide, by decide, by decide⟩

/-! ## Claim C5 -/

/-- C5, counterexample: `validate_pattern` accepts the string `"0"`, whose
digit multiset is `{0}` — not of the form `{1, …, k}` with `k ≥ 1` and no
digit `0`.  The scanning loop never rejects the digit `0`, since `0` can
never exceed the running maximum plus one. -/
theorem c5_counterexample :
    validate_pattern ['0'] = true ∧
    ∃ c ∈ (['0'] : List Char), c.toNat - '0'.toNat = 0 := by
  refine ⟨by decide, by decide⟩

/-- C5, amended: for every string accepted by `validate_pattern`, the set of
nonzero digit values is downward-contiguous from 1: below every digit value
of the string, every positive value also occurs.  (The digit `0` may occur
anywhere — e.g. `"0"` and `"10"` are accepted — so the digit set is
`{1, …, k}` for some `k ≥ 0`, possibly together with `0`.) -/
theorem c5_theorem (s : List Char) (h : validate_pattern s = true) :
    ∀ c ∈ s, ∀ m, m ≤ c.toNat - '0'.toNat → 1 ≤ m →
      ∃ d ∈ s, d.toNat - '0'.toNat = m := by
  rcases validate_pattern_parts h with ⟨_, _, hscan⟩
  intro c hc m hm h1
  exact scanDigits_contiguous s 0 hscan c hc m hm h1

/-- C5, witness: the amended theorem applied to the accepted string `1123`. -/
theorem c5_witness :
    validate_pattern (("1123").data) = true ∧
    ∀ c ∈ ("1123").data, ∀ m, m ≤ c.toNat - '0'.toNat → 1 ≤ m →
      ∃ d ∈ ("1123").data, d.toNat - '0'.toNat = m :=
  ⟨by decide, c5_theorem _ (by decide)⟩

/-! ## Claim C6 -/

/-- C6, counterexample: for the word `ABCDEFGHIJ` (length 10, all letters
distinct) the signature is `"12345678910"`, of length 11, not 10: with a
tenth distinct letter the rank `10` contributes two characters, so the
signature is not the same length as the word. -/
theorem c6_counterexample :
    (("ABCDEFGHIJ").data).length = 10 ∧
    (get_pattern (("ABCDEFGHIJ").data)).length = 11 := by
  refine ⟨by decide, by decide⟩

/-- C6, amended: for every word of length 1–20 with at most 9 distinct
(lower-cased) letters, `get_pattern` returns a digit string of the same
length in which the digit at position `i` is the first-occurrence rank
(starting at 1) of the word's lower-cased letter at position `i` among the
distinct letters scanned left to right. -/
theorem c6_theorem (w : List Char) (h1 : 1 ≤ w.length) (h2 : w.length ≤ 20)
    (hd : fewDistinct w) :
    (get_pattern w).length = w.length ∧
    (∀ c ∈ get_pattern w, c.isDigit = true) ∧
    ∀ i, i < w.length →
      (List.get? (get_pattern w) i).map (fun c => c.toNat - '0'.toNat) =
        (List.get? (pyLower w) i).map
          (fun c => idxOf c (uniqList (pyLower w)) + 1) := by
  refine ⟨get_pattern_length hd, get_pattern_digits hd, ?_⟩
  intro i hi
  rw [get_pattern_eq_map hd, List.get?_map]
  have hrs := ranksAux_get? (pyLower w) [] trivial i
  rw [keys_seenFinal_nil] at hrs
  rw [hrs]
  cases hg : List.get? (pyLower w) i with
  | none => rfl
  | some c =>
    simp only [Option.map_some']
    have hc : c ∈ uniqList (pyLower w) :=
      (mem_uniqList c (pyLower w)).mpr (List.get?_mem hg)
    have hlt : idxOf c (uniqList (pyLower w)) < 9 := by
      have := idxOf_lt_length c (uniqList (pyLower w)) hc
      rw [fewDistinct] at hd
      omega
    rw [(repr_digit (idxOf c (uniqList (pyLower w)) + 1) (by omega) (by omega)).2.2]

/-- C6, witness: the amended theorem applied to `HELLO`
(signature `12334`). -/
theorem c6_witness :
    1 ≤ (("HELLO").data).length ∧ (("HELLO").data).length ≤ 20 ∧
    fewDistinct (("HELLO").data) ∧
    ((get_pattern (("HELLO").data)).length = (("HELLO").data).length ∧
      (∀ c ∈ get_pattern (("HELLO").data), c.isDigit = true) ∧
      ∀ i, i < (("HELLO").data).length →
        (List.get? (get_pattern (("HELLO").data)) i).map
            (fun c => c.toNat - '0'.toNat) =
          (List.get? (pyLower (("HELLO").data)) i).map
            (fun c => idxOf c (uniqList (pyLower (("HELLO").data))) + 1)) :=
  ⟨by decide, by decide, by rw [fewDistinct]; decide,
    c6_theorem _ (by decide) (by decide) (by rw [fewDistinct]; decide)⟩

/-! ## Build-side dictionary lemmas (claims C7, C8, C9) -/

theorem lookupWords_dictExtend (q : List Char) (ws : List (List Char)) :
    ∀ (d : List (List Char × List (List Char))) (p : List Char),
      lookupWords (dictExtend d q ws) p =
        if p = q then lookupWords d p ++ ws else lookupWords d p := by
  intro d
  induction d with
  | nil =>
    intro p
    by_cases hp : p = q
    · rw [hp]; simp [dictExtend, lookupWords]
    · have hqp : ¬ q = p := fun h => hp h.symm
      simp [dictExtend, lookupWords, hp, hqp]
  | cons e rest ih =>
    intro p
    by_cases he : e.1 = q
    · rw [dictExtend, if_pos he]
      by_cases hp : e.1 = p
      · have hpq : p = q := by rw [← hp, he]
        rw [lookupWords, if_pos hp, if_pos hpq, lookupWords, if_pos hp]
      · have hpq : ¬ p = q := fun h => hp (by rw [he, ← h])
        rw [lookupWords, if_neg hp, if_neg hpq, lookupWords, if_neg hp]
    · rw [dictExtend, if_neg he]
      by_cases hp : e.1 = p
      · have hpq : ¬ p = q := fun h => he (by rw [hp, h])
        rw [lookupWords, if_pos hp, if_neg hpq, lookupWords, if_pos hp]
      · rw [lookupWords, if_neg hp, ih p, lookupWords, if_neg hp]

theorem lookupWords_not_mem (p : List Char) :
    ∀ d : List (List Char × List (List Char)),
      p ∉ d.map (fun e => e.1) → lookupWords d p = [] := by
  intro d
  induction d with
  | nil => intro _; rfl
  | cons e rest ih =>
    intro h
    simp only [List.map_cons, List.mem_cons] at h
    rw [lookupWords, if_neg (fun hc : e.1 = p => h (Or.inl hc.symm))]
    exact ih fun hc => h (Or.inr hc)

theorem keys_dictExtend (q : List Char) (ws : List (List Char)) :
    ∀ d : List (List Char × List (List Char)),
      (dictExtend d q ws).map (fun e => e.1) =
        if q ∈ d.map (fun e => e.1) then d.map (fun e => e.1)
        else d.map (fun e => e.1) ++ [q] := by
  intro d
  induction d with
  | nil => simp [dictExtend]
  | cons e rest ih =>
    by_cases he : e.1 = q
    · rw [dictExtend, if_pos he]
      rw [if_pos (by simp [he])]
      simp
    · rw [dictExtend, if_neg he]
      simp only [List.map_cons, List.mem_cons]
      by_cases hq : q ∈ rest.map (fun e => e.1)
      · rw [ih, if_pos hq, if_pos (Or.inr hq)]
      · rw [ih, if_neg hq, if_neg (by rintro (h | h); exact he h.symm; exact hq h)]
        rfl

theorem nodup_append_singleton {α : Type} (q : α) :
    ∀ l : List α, l.Nodup → q ∉ l → (l ++ [q]).Nodup := by
  intro l
  induction l with
  | nil => intro _ _; simp
  | cons x xs ih =>
    intro h hq
    rcases List.nodup_cons.mp h with ⟨hx, hxs⟩
    have hq' : q ∉ xs := fun hc => hq (List.mem_cons_of_mem x hc)
    have hqx : ¬ q = x := fun hc => hq (by rw [hc]; exact List.mem_cons_self x xs)
    refine List.nodup_cons.mpr ⟨?_, ih hxs hq'⟩
    intro hc
    rcases List.mem_append.mp hc with hc | hc
    · exact hx hc
    · rcases List.mem_singleton.mp hc with hc
      exact hqx hc.symm

theorem nodup_keys_dictExtend (q : List Char) (ws : List (List Char))
    (d : List (List Char × List (List Char)))
    (h : (d.map (fun e => e.1)).Nodup) :
    ((dictExtend d q ws).map (fun e => e.1)).Nodup := by
  rw [keys_dictExtend]
  by_cases hq : q ∈ d.map (fun e => e.1)
  · rw [if_pos hq]; exact h
  · rw [if_neg hq]
    exact nodup_append_singleton q _ h hq

theorem lookupWords_foldl_words :
    ∀ (ws : List (List Char)) (d : List (List Char × List (List Char)))
      (p : List Char),
      lookupWords (ws.foldl (fun d w => dictExtend d (get_pattern w) [w]) d) p =
        lookupWords d p ++ ws.filter (fun w => decide (get_pattern w = p)) := by
  intro ws
  induction ws with
  | nil => intro d p; simp
  | cons w ws ih =>
    intro d p
    rw [List.foldl_cons, ih, lookupWords_dictExtend]
    by_cases hp : p = get_pattern w
    · rw [if_pos hp, List.filter_cons,
        if_pos (by simp [hp]), List.append_assoc]
      rfl
    · rw [if_neg hp, List.filter_cons, if_neg (by simp; exact fun h => hp h.symm)]

theorem nodup_keys_foldl_words :
    ∀ (ws : List (List Char)) (d : List (List Char × List (List Char))),
      (d.map (fun e => e.1)).Nodup →
      (((ws.foldl (fun d w => dictExtend d (get_pattern w) [w]) d)).map
        (fun e => e.1)).Nodup := by
  intro ws
  induction ws with
  | nil => intro d h; exact h
  | cons w ws ih =>
    intro d h
    rw [List.foldl_cons]
    exact ih _ (nodup_keys_dictExtend _ _ d h)

theorem lookupWords_fileDict (ls : List (List Char)) (p : List Char) :
    lookupWords (fileDict ls) p =
      (fileWords ls).filter (fun w => decide (get_pattern w = p)) := by
  rw [fileDict, lookupWords_foldl_words]
  rfl

theorem nodup_keys_fileDict (ls : List (List Char)) :
    ((fileDict ls).map (fun e => e.1)).Nodup :=
  nodup_keys_foldl_words (fileWords ls) [] (by simp)

theorem lookupWords_mergeDict :
    ∀ (entries g : List (List Char × List (List Char))) (p : List Char),
      (entries.map (fun e => e.1)).Nodup →
      lookupWords (mergeDict g entries) p =
        lookupWords g p ++ lookupWords entries p := by
  intro entries
  induction entries with
  | nil => intro g p _; simp [mergeDict, lookupWords]
  | cons e rest ih =>
    intro g p h
    rw [List.map_cons] at h
    rcases List.nodup_cons.mp h with ⟨he, hrest⟩
    rw [mergeDict, List.foldl_cons]
    have : rest.foldl (fun g e => dictExtend g e.1 e.2) (dictExtend g e.1 e.2) =
        mergeDict (dictExtend g e.1 e.2) rest := rfl
    rw [this, ih (dictExtend g e.1 e.2) p hrest, lookupWords_dictExtend]
    by_cases hp : p = e.1
    · rw [if_pos hp, lookupWords, if_pos hp.symm]
      rw [lookupWords_not_mem p rest (by rw [hp]; exact he), List.append_nil]
    · rw [if_neg hp, lookupWords, if_neg (fun h : e.1 = p => hp h.symm)]

theorem lookupWords_globalDict :
    ∀ (files : List (List (List Char)))
      (g : List (List Char × List (List Char))) (p : List Char),
      lookupWords (files.foldl (fun g f => mergeDict g (fileDict f)) g) p =
        lookupWords g p ++
          (files.flatMap fileWords).filter (fun w => decide (get_pattern w = p)) := by
  intro files
  induction files with
  | nil => intro g p; simp
  | cons f fs ih =>
    intro g p
    rw [List.foldl_cons, ih, lookupWords_mergeDict (fileDict f) g p (nodup_keys_fileDict f),
      lookupWords_fileDict, List.flatMap_cons, List.filter_append, List.append_assoc]

theorem lookupWords_map_normalize :
    ∀ (d : List (List Char × List (List Char))) (p : List Char),
      lookupWords (d.map (fun e => (e.1, pySortedSet e.2))) p =
        pySortedSet (lookupWords d p) := by
  intro d
  induction d with
  | nil => intro p; rfl
  | cons e rest ih =>
    intro p
    by_cases hp : e.1 = p
    · rw [List.map_cons, lookupWords, if_pos hp, lookupWords, if_pos hp]
    · rw [List.map_cons, lookupWords, if_neg hp, lookupWords, if_neg hp, ih]

/-- The value stored for signature `p` in the final built index: the sorted,
deduplicated list of all valid words with that signature across all
sources. -/
theorem lookupWords_buildDict (files : List (List (List Char))) (p : List Char) :
    lookupWords (buildDict files) p =
      pySortedSet
        ((files.flatMap fileWords).filter (fun w => decide (get_pattern w = p))) := by
  rw [buildDict, lookupWords_map_normalize, globalDict, lookupWords_globalDict]
  rfl

/-! ## Claim C8 -/

/-- C8: building from sources `[A, B]`, from `[B, A]`, or from the single
concatenated source `A ++ B` yields the same mapping from signature to
sorted word list. -/
theorem c8_theorem (A B : List (List Char)) (p : List Char) :
    lookupWords (buildDict [A, B]) p = lookupWords (buildDict [B, A]) p ∧
    lookupWords (buildDict [A, B]) p = lookupWords (buildDict [A ++ B]) p := by
  have hAB := lookupWords_buildDict [A, B] p
  have hBA := lookupWords_buildDict [B, A] p
  have hCat := lookupWords_buildDict [A ++ B] p
  have hflat : ∀ X Y : List (List Char),
      ([X, Y].flatMap fileWords) = fileWords X ++ fileWords Y := by
    intro X Y
    simp [List.flatMap_cons, List.flatMap_nil]
  have happ : fileWords (A ++ B) = fileWords A ++ fileWords B := by
    rw [fileWords, fileWords, fileWords, List.filterMap_append]
  constructor
  · rw [hAB, hBA, hflat, hflat]
    refine pySortedSet_ext fun a => ?_
    rw [List.filter_append, List.filter_append]
    simp only [List.mem_append]
    tauto
  · rw [hAB, hCat, hflat]
    have : [A ++ B].flatMap fileWords = fileWords A ++ fileWords B := by
      simp [List.flatMap_cons, List.flatMap_nil, happ]
    rw [this]

/-! ## Claim C9 -/

/-- C9: any valid word contributed by any source — in particular a word
contributed by two different sources, or twice by one source — appears
exactly once in its signature's word list in the final built index. -/
theorem count_eq_one_of_nodup_mem {w : List Char} :
    ∀ l : List (List Char), l.Nodup → w ∈ l → List.count w l = 1 := by
  intro l
  induction l with
  | nil => intro _ h; cases h
  | cons x xs ih =>
    intro hn hm
    rcases List.nodup_cons.mp hn with ⟨hx, hxs⟩
    rw [List.count_cons]
    rcases List.mem_cons.mp hm with hm | hm
    · have hz : List.count w xs = 0 := by
        rw [List.count_eq_zero]
        rw [hm]
        exact hx
      rw [hz, if_pos (by rw [hm]; exact beq_self_eq_true x)]
    · have hxw : ¬ (x == w) = true := by
        intro hc
        rw [eq_of_beq hc] at hx
        exact hx hm
      rw [ih hxs hm, if_neg hxw]

theorem c9_theorem (files : List (List (List Char))) (w p : List Char)
    (hw : w ∈ files.flatMap fileWords) (hp : get_pattern w = p) :
    List.count w (lookupWords (buildDict files) p) = 1 := by
  rw [lookupWords_buildDict]
  refine count_eq_one_of_nodup_mem _ (nodup_pySortedSet _) ?_
  rw [mem_pySortedSet]
  exact List.mem_filter.mpr ⟨hw, by simp [hp]⟩

/-- C9, witness: the word `HELLO` fed by two sources (one lower-case line,
one upper-case line — both normalize to the same word) is stored once. -/
theorem c9_witness :
    (("HELLO").data) ∈ [[("hello").data], [("HELLO").data]].flatMap fileWords ∧
    get_pattern (("HELLO").data) = ("12334").data ∧
    List.count (("HELLO").data)
      (lookupWords (buildDict [[("hello").data], [("HELLO").data]])
        (("12334").data)) = 1 :=
  ⟨by decide, by decide, c9_theorem _ _ _ (by decide) (by decide)⟩

/-! ## Serialization order (claim C7) -/

/-- Length-ascending with lexicographic tie-break: the within-group order of
the serialized index. -/
def lenLexLe (a b : List Char) : Prop :=
  a.length < b.length ∨ (a.length = b.length ∧ strLe a b = true)

theorem insertSorted_len_pairwise :
    ∀ (L : List (List Char)) (x : List Char),
      L.Pairwise lenLexLe → (∀ y ∈ L, strLe x y = true) →
      (insertSorted lenLe x L).Pairwise lenLexLe := by
  intro L
  induction L with
  | nil => intro x _ _; simp [insertSorted]
  | cons h t ih =>
    intro x hp hx
    rcases List.pairwise_cons.mp hp with ⟨hht, htp⟩
    by_cases hle : lenLe x h = true
    · rw [insertSorted, if_pos hle]
      refine List.pairwise_cons.mpr ⟨?_, hp⟩
      intro y hy
      have hxh : x.length ≤ h.length := by
        rw [lenLe] at hle
        exact Nat.le_of_ble_eq_true hle
      rcases List.mem_cons.mp hy with hyh | hyt
      · rcases Nat.lt_or_ge x.length y.length with h1 | h1
        · exact Or.inl h1
        · rw [hyh] at h1
          refine Or.inr ⟨by rw [hyh]; omega, ?_⟩
          rw [hyh]
          exact hx h (List.mem_cons_self h t)
      · have hhy := hht y hyt
        have h2 : h.length ≤ y.length := by
          rcases hhy with h1 | ⟨h1, _⟩ <;> omega
        rcases Nat.lt_or_ge x.length y.length with h1 | h1
        · exact Or.inl h1
        · exact Or.inr ⟨by omega, hx y (List.mem_cons_of_mem h hyt)⟩
    · rw [insertSorted, if_neg hle]
      have hxh : h.length < x.length := by
        rw [lenLe] at hle
        have : ¬ x.length ≤ h.length := fun hc => hle (Nat.ble_eq_true_of_le hc)
        omega
      refine List.pairwise_cons.mpr
        ⟨?_, ih x htp fun y hy => hx y (List.mem_cons_of_mem h hy)⟩
      intro y hy
      rcases (mem_insertSorted lenLe x y t).mp hy with hyx | hyt
      · rw [hyx]
        exact Or.inl hxh
      · exact hht y hyt

theorem insSortLen_pairwise :
    ∀ L : List (List Char), L.Pairwise (fun a b => strLe a b = true) →
      (insSort lenLe L).Pairwise lenLexLe := by
  intro L
  induction L with
  | nil => intro _; simp [insSort]
  | cons x xs ih =>
    intro hp
    rcases List.pairwise_cons.mp hp with ⟨hx, hxs⟩
    exact insertSorted_len_pairwise (insSort lenLe xs) x (ih hxs)
      fun y hy => hx y ((mem_insSort lenLe y xs).mp hy)

/-- The lexicographically smallest word of a group (`[]` for an empty
group). -/
def lexMin : List (List Char) → List Char
  | [] => []
  | w :: ws => ws.foldl (fun a b => if strLe a b then a else b) w

theorem lexMin_spec :
    ∀ (ws : List (List Char)) (w : List Char),
      (lexMin (w :: ws) = w ∨ lexMin (w :: ws) ∈ ws) ∧
      strLe (lexMin (w :: ws)) w = true ∧
      ∀ a ∈ ws, strLe (lexMin (w :: ws)) a = true := by
  intro ws
  induction ws with
  | nil =>
    intro w
    exact ⟨Or.inl rfl, strLe_refl w, by intro a ha; cases ha⟩
  | cons b ws ih =>
    intro w
    have hstep : lexMin (w :: b :: ws) = lexMin ((if strLe w b then w else b) :: ws) := rfl
    rcases ih (if strLe w b then w else b) with ⟨hmem, hle1, hle2⟩
    by_cases hwb : strLe w b = true
    · rw [if_pos hwb] at hmem hle1 hle2
      refine ⟨?_, ?_, ?_⟩
      · rw [hstep, if_pos hwb]
        rcases hmem with h | h
        · exact Or.inl h
        · exact Or.inr (List.mem_cons_of_mem b h)
      · rw [hstep, if_pos hwb]
        exact hle1
      · rw [hstep, if_pos hwb]
        intro a ha
        rcases List.mem_cons.mp ha with hab | haws
        · rw [hab]
          exact strLe_trans _ w b hle1 hwb
        · exact hle2 a haws
    · rw [if_neg hwb] at hmem hle1 hle2
      have hbw : strLe b w = true := by
        rcases strLe_total w b with h | h
        · exact absurd h hwb
        · exact h
      refine ⟨?_, ?_, ?_⟩
      · rw [hstep, if_neg hwb]
        rcases hmem with h | h
        · exact Or.inr (by rw [h]; exact List.mem_cons_self b ws)
        · exact Or.inr (List.mem_cons_of_mem b h)
      · rw [hstep, if_neg hwb]
        exact strLe_trans _ b w hle1 hbw
      · rw [hstep, if_neg hwb]
        intro a ha
        rcases List.mem_cons.mp ha with hab | haws
        · rw [hab]
          exact hle1
        · exact hle2 a haws

theorem lexMin_mem : ∀ ws : List (List Char), ws ≠ [] → lexMin ws ∈ ws := by
  intro ws h
  cases ws with
  | nil => exact absurd rfl h
  | cons w t =>
    rcases (lexMin_spec t w).1 with h1 | h1
    · rw [h1]; exact List.mem_cons_self w t
    · exact List.mem_cons_of_mem w h1

theorem lexMin_lb : ∀ (ws : List (List Char)) (a : List Char), a ∈ ws →
    strLe (lexMin ws) a = true := by
  intro ws a ha
  cases ws with
  | nil => cases ha
  | cons w t =>
    rcases List.mem_cons.mp ha with h | h
    · rw [h]; exact (lexMin_spec t w).2.1
    · exact (lexMin_spec t w).2.2 a h

theorem lexMin_congr : ∀ v v' : List (List Char),
    (∀ a, a ∈ v ↔ a ∈ v') → lexMin v = lexMin v' := by
  intro v v' h
  cases v with
  | nil =>
    cases v' with
    | nil => rfl
    | cons w t => exact absurd ((h w).mpr (List.mem_cons_self w t)) (by simp)
  | cons w t =>
    cases v' with
    | nil => exact absurd ((h w).mp (List.mem_cons_self w t)) (by simp)
    | cons u s =>
      have h1 : lexMin (w :: t) ∈ u :: s :=
        (h _).mp (lexMin_mem (w :: t) (by simp))
      have h2 : lexMin (u :: s) ∈ w :: t :=
        (h _).mpr (lexMin_mem (u :: s) (by simp))
      exact strLe_antisymm _ _ (lexMin_lb (w :: t) _ h2) (lexMin_lb (u :: s) _ h1)

/-- The length of the lexicographically smallest word of a group: the actual
serialization sort key of the build (`serKey` below computes it from the
already lexicographically sorted stored list). -/
def groupMinLen (ws : List (List Char)) : Nat := (lexMin ws).length

theorem serKey_eq_lexMin (p : List Char) (v : List (List Char))
    (hs : v.Pairwise (fun a b => strLe a b = true)) :
    serKey (p, v) = (lexMin v).length := by
  cases v with
  | nil => rfl
  | cons w ws =>
    have hwlb : ∀ a ∈ w :: ws, strLe w a = true := by
      intro a ha
      rcases List.mem_cons.mp ha with h | h
      · rw [h]; exact strLe_refl w
      · exact (List.pairwise_cons.mp hs).1 a h
    have hmem : lexMin (w :: ws) ∈ w :: ws := lexMin_mem (w :: ws) (by simp)
    have h1 : strLe w (lexMin (w :: ws)) = true := hwlb _ hmem
    have h2 : strLe (lexMin (w :: ws)) w = true := (lexMin_spec ws w).2.1
    show w.length = (lexMin (w :: ws)).length
    rw [strLe_antisymm _ _ h2 h1]

theorem groupMinLen_insSortLen (v : List (List Char)) :
    groupMinLen (insSort lenLe v) = (lexMin v).length := by
  rw [groupMinLen, lexMin_congr (insSort lenLe v) v fun a => mem_insSort lenLe a v]

/-- C7, amended: in the serialized index, the signature groups appear in
ascending order of the length of the *lexicographically smallest* word of
each group (the build sorts by `len(x[1][0])`, the first word of the already
lexicographically sorted list — for groups whose words all share one length
this coincides with the shortest word, but not in general); within each
group the words appear sorted by length ascending with ties broken
lexicographically (a stable sort by length over the lexicographically sorted
deduplicated list). -/
theorem c7_theorem (files : List (List (List Char))) :
    (serializeIndex files).Pairwise
      (fun a b => groupMinLen a.2 ≤ groupMinLen b.2) ∧
    ∀ e ∈ serializeIndex files, e.2.Pairwise lenLexLe := by
  have hmids : ∀ e ∈ buildDict files,
      e.2.Pairwise (fun a b => strLe a b = true) := by
    intro e he
    rcases List.mem_map.mp he with ⟨a, _, hae⟩
    rw [← hae]
    exact sorted_pySortedSet a.2
  constructor
  · rw [serializeIndex, List.pairwise_map]
    have htot : ∀ a b : List Char × List (List Char),
        Nat.ble (serKey a) (serKey b) = true ∨
        Nat.ble (serKey b) (serKey a) = true := by
      intro a b
      rcases Nat.le_total (serKey a) (serKey b) with h | h
      · exact Or.inl (Nat.ble_eq_true_of_le h)
      · exact Or.inr (Nat.ble_eq_true_of_le h)
    have htr : ∀ a b c : List Char × List (List Char),
        Nat.ble (serKey a) (serKey b) = true →
        Nat.ble (serKey b) (serKey c) = true →
        Nat.ble (serKey a) (serKey c) = true := by
      intro a b c h1 h2
      exact Nat.ble_eq_true_of_le
        (Nat.le_trans (Nat.le_of_ble_eq_true h1) (Nat.le_of_ble_eq_true h2))
    have hsorted := pairwise_insSort htot htr (buildDict files)
    refine List.Pairwise.imp_of_mem ?_ hsorted
    intro a b ha hb hr
    have ham : a ∈ buildDict files := (mem_insSort _ a _).mp ha
    have hbm : b ∈ buildDict files := (mem_insSort _ b _).mp hb
    have hka : serKey a = (lexMin a.2).length := by
      have := serKey_eq_lexMin a.1 a.2 (hmids a ham)
      simpa using this
    have hkb : serKey b = (lexMin b.2).length := by
      have := serKey_eq_lexMin b.1 b.2 (hmids b hbm)
      simpa using this
    show groupMinLen (insSort lenLe a.2) ≤ groupMinLen (insSort lenLe b.2)
    rw [groupMinLen_insSortLen, groupMinLen_insSortLen, ← hka, ← hkb]
    exact Nat.le_of_ble_eq_true hr
  · intro e he
    rw [serializeIndex] at he
    rcases List.mem_map.mp he with ⟨a, ha, hae⟩
    have ham : a ∈ buildDict files := (mem_insSort _ a _).mp ha
    rw [← hae]
    exact insSortLen_pairwise a.2 (hmids a ham)

/-- The length of the shortest word of a group (`0` for an empty group). -/
def groupShortest (ws : List (List Char)) : Nat :=
  match ws with
  | [] => 0
  | w :: rest => rest.foldl (fun n b => Nat.min n b.length) w.length

/-- C7, counterexample: the claim orders groups by the length of the
*shortest* word, but the build's key is the length of the lexicographically
smallest word.  The signature `123456789101112` is shared by
`ABCDEFGHIJKL` (length 12) and `ABCDEFGHIJAAAB` (length 14), whose
lexicographically smallest word has length 14; the group of
`ABCDEFGHIJKLM` (length 13) therefore precedes it in the serialized output,
even though its shortest word is longer (13 > 12). -/
theorem c7_counterexample :
    ¬ (serializeIndex
        [[("ABCDEFGHIJKL").data, ("ABCDEFGHIJAAAB").data,
          ("ABCDEFGHIJKLM").data]]).Pairwise
      (fun a b => groupShortest a.2 ≤ groupShortest b.2) := by
  decide

/-! ## Loader lemmas (claims C2 and C10) -/

theorem dropWhile_cons_head {p : Char → Bool} {a : Char} {t : List Char} :
    ∀ l : List Char, l.dropWhile p = a :: t → p a = false := by
  intro l
  induction l with
  | nil => intro h; cases h
  | cons x xs ih =>
    intro h
    rw [List.dropWhile_cons] at h
    by_cases hx : p x = true
    · rw [if_pos hx] at h
      exact ih h
    · rw [if_neg hx] at h
      cases List.cons.inj h
      subst a
      exact Bool.not_eq_true _ ▸ (by revert hx; cases p x <;> simp)

theorem head_dropWhile_false {p : Char → Bool} {a : Char} :
    ∀ l : List Char, (l.dropWhile p).head? = some a → p a = false := by
  intro l h
  cases hd : l.dropWhile p with
  | nil => rw [hd] at h; cases h
  | cons x xs =>
    rw [hd] at h
    cases Option.some.inj h
    exact dropWhile_cons_head l hd

theorem stripChars_last_not_space {line : List Char} {c : Char}
    (h : (stripChars line).getLast? = some c) : pyIsSpace c = false := by
  rw [stripChars, List.getLast?_reverse] at h
  exact head_dropWhile_false _ h

theorem pySplitAux_ne_nil_of_cur :
    ∀ (l cur : List Char), cur ≠ [] → pySplitAux cur l ≠ [] := by
  intro l
  induction l with
  | nil =>
    intro cur h
    rw [pySplitAux]
    rw [if_neg (by simpa using h)]
    simp
  | cons c cs ih =>
    intro cur h
    rw [pySplitAux]
    by_cases hc : pyIsSpace c = true
    · rw [if_pos hc, if_neg (by simpa using h)]
      simp
    · rw [if_neg hc]
      exact ih (c :: cur) (by simp)

theorem pySplitAux_ne_nil :
    ∀ (l cur : List Char), (∃ d ∈ l, pyIsSpace d = false) →
      pySplitAux cur l ≠ [] := by
  intro l
  induction l with
  | nil =>
    intro cur h
    rcases h with ⟨d, hd, _⟩
    cases hd
  | cons c cs ih =>
    intro cur h
    rw [pySplitAux]
    by_cases hc : pyIsSpace c = true
    · have h' : ∃ d ∈ cs, pyIsSpace d = false := by
        rcases h with ⟨d, hd, hds⟩
        rcases List.mem_cons.mp hd with hdc | hdc
        · rw [hdc] at hds; rw [hds] at hc; cases hc
        · exact ⟨d, hdc, hds⟩
      rw [if_pos hc]
      by_cases hcur : cur.isEmpty = true
      · rw [if_pos hcur]
        exact ih [] h'
      · rw [if_neg hcur]
        simp
    · rw [if_neg hc]
      exact pySplitAux_ne_nil_of_cur cs (c :: cur) (by simp)

theorem parseIndexLine_words_ne_nil {line p : List Char} {ws : List (List Char)}
    (h : parseIndexLine line = some (p, ws)) : ws ≠ [] := by
  rw [parseIndexLine, splitOnce] at h
  cases hd : (stripChars line).dropWhile (fun c => !(c = ' ')) with
  | nil => rw [hd] at h; cases h
  | cons c rest =>
    rw [hd] at h
    have hws : ws = pySplit rest := by
      cases Option.some.inj h
      rfl
    have hcsp : c = ' ' := by
      have := dropWhile_cons_head (stripChars line) hd
      revert this
      by_cases hcc : c = ' '
      · intro _; exact hcc
      · simp [hcc]
    have hsplit : stripChars line =
        (stripChars line).takeWhile (fun c => !(c = ' ')) ++ c :: rest := by
      rw [← hd, List.takeWhile_append_dropWhile]
    cases hrest : rest with
    | nil =>
      exfalso
      have hlast : (stripChars line).getLast? = some c := by
        rw [hsplit, hrest]
        exact List.getLast?_concat _
      have := stripChars_last_not_space hlast
      rw [hcsp] at this
      simp [pyIsSpace] at this
    | cons r t =>
      have hlast : (stripChars line).getLast? = rest.getLast? := by
        rw [hsplit]
        have h1 : (c :: rest).getLast? = rest.getLast? := by
          rw [hrest]
          rfl
        rw [← h1]
        exact List.getLast?_append_of_ne_nil _ (by simp)
      cases hgl : rest.getLast? with
      | none => rw [hrest] at hgl; cases hgl
      | some d =>
        have hdm : d ∈ rest := List.mem_of_mem_getLast? hgl
        have hds : pyIsSpace d = false :=
          stripChars_last_not_space
            (show (stripChars line).getLast? = some d by rw [hlast, hgl])
        rw [hws]
        exact pySplitAux_ne_nil rest [] ⟨d, hdm, hds⟩

theorem loadPatterns_values_ne_nil :
    ∀ (lines : List (List Char)) (idx : List (List Char × List (List Char))),
      loadPatterns lines = some idx → ∀ e ∈ idx, e.2 ≠ [] := by
  intro lines
  induction lines with
  | nil =>
    intro idx h e he
    cases Option.some.inj h
    cases he
  | cons l ls ih =>
    intro idx h e he
    rw [loadPatterns] at h
    cases hp : parseIndexLine l with
    | none => rw [hp] at h; cases h
    | some a =>
      cases hr : loadPatterns ls with
      | none => rw [hp, hr] at h; cases h
      | some rest =>
        rw [hp, hr] at h
        cases Option.some.inj h
        rcases List.mem_cons.mp he with hea | hea
        · rw [hea]
          cases a with
          | mk q ws => exact parseIndexLine_words_ne_nil hp
        · exact ih rest hr e hea

theorem pyDictGet_mem {α : Type} {k : List Char} {v : α} :
    ∀ idx : List (List Char × α), pyDictGet idx k = some v → (k, v) ∈ idx := by
  intro idx
  induction idx with
  | nil => intro h; cases h
  | cons e rest ih =>
    intro h
    rw [pyDictGet] at h
    cases hr : pyDictGet rest k with
    | some v' =>
      rw [hr] at h
      cases Option.some.inj h
      exact List.mem_cons_of_mem e (ih hr)
    | none =>
      rw [hr] at h
      by_cases he : e.1 = k
      · rw [if_pos he] at h
        have : (k, v) = e := by
          cases e with
          | mk q ws =>
            simp only at he
            cases Option.some.inj h
            rw [he]
        rw [this]
        exact List.mem_cons_self e rest
      · rw [if_neg he] at h
        cases h

/-! ## Claim C2 -/

/-- The failure condition of shape validation as the claim states it: empty,
not all digits, longer than 20 characters, or some digit exceeding the
running maximum seen so far by more than 1. -/
def specShapeInvalid (s : List Char) : Prop :=
  s = [] ∨ (¬ ∀ c ∈ s, c.isDigit = true) ∨ 20 < s.length ∨ scanDigits 0 s = false

theorem validate_pattern_true_iff (s : List Char) :
    validate_pattern s = true ↔
      s ≠ [] ∧ (∀ c ∈ s, c.isDigit = true) ∧ s.length ≤ 20 ∧
        scanDigits 0 s = true := by
  constructor
  · intro h
    rcases validate_pattern_parts h with ⟨hd, hl, hs⟩
    rw [pyIsDigitStr, Bool.and_eq_true, List.all_eq_true] at hd
    refine ⟨?_, hd.2, hl, hs⟩
    intro hnil
    rw [hnil] at hd
    simp at hd
  · rintro ⟨hne, hdig, hlen, hscan⟩
    have hd : pyIsDigitStr s = true := by
      rw [pyIsDigitStr, Bool.and_eq_true, List.all_eq_true]
      refine ⟨?_, hdig⟩
      cases s with
      | nil => exact absurd rfl hne
      | cons c t => rfl
    rw [validate_pattern,
      if_neg (by
        rw [hd]
        simp only [Bool.not_true, Bool.false_or, decide_eq_true_eq]
        omega)]
    exact hscan

theorem specShapeInvalid_iff (s : List Char) :
    specShapeInvalid s ↔ validate_pattern s = false := by
  constructor
  · intro h
    cases hv : validate_pattern s with
    | false => rfl
    | true =>
      rcases (validate_pattern_true_iff s).mp hv with ⟨h1, h2, h3, h4⟩
      rcases h with h | h | h | h
      · exact absurd h h1
      · exact absurd h2 h
      · omega
      · rw [h4] at h; cases h
  · intro h
    by_contra hc
    rw [specShapeInvalid] at hc
    push_neg at hc
    rcases hc with ⟨h1, h2, h3, h4⟩
    have : validate_pattern s = true :=
      (validate_pattern_true_iff s).mpr
        ⟨h1, h2, by omega, by
          cases hs : scanDigits 0 s with
          | false => exact absurd hs h4
          | true => rfl⟩
    rw [this] at h
    cases h

/-- C2: for any successfully loaded index and any exact-signature query
string: a string failing the claim's shape validation draws HTTP 400; a
valid string absent from the index draws HTTP 404; a valid string present in
the index returns exactly the stored word list (in its stored, serialized
order).  The present case relies on every loaded word list being nonempty,
which the loader guarantees. -/
theorem c2_theorem (lines : List (List Char))
    (idx : List (List Char × List (List Char)))
    (hl : loadPatterns lines = some idx) (s : List Char) :
    (specShapeInvalid s → resolveExact idx s = .error 400) ∧
    (¬ specShapeInvalid s → pyDictGet idx s = none →
      resolveExact idx s = .error 404) ∧
    (¬ specShapeInvalid s → ∀ ws, pyDictGet idx s = some ws →
      resolveExact idx s = .ok ws) := by
  refine ⟨?_, ?_, ?_⟩
  · intro h
    have hv : validate_pattern s = false := (specShapeInvalid_iff s).mp h
    rw [resolveExact, if_pos (by rw [hv]; rfl)]
  · intro h hnone
    have hv : validate_pattern s = true := by
      cases hvv : validate_pattern s with
      | true => rfl
      | false => exact absurd ((specShapeInvalid_iff s).mpr hvv) h
    rw [resolveExact, if_neg (by rw [hv]; simp), hnone]
  · intro h ws hsome
    have hv : validate_pattern s = true := by
      cases hvv : validate_pattern s with
      | true => rfl
      | false => exact absurd ((specShapeInvalid_iff s).mpr hvv) h
    have hmem : (s, ws) ∈ idx := pyDictGet_mem idx hsome
    have hne : ws ≠ [] := loadPatterns_values_ne_nil lines idx hl (s, ws) hmem
    cases ws with
    | nil => exact absurd rfl hne
    | cons w t =>
      rw [resolveExact, if_neg (by rw [hv]; simp), hsome]

/-- C2, witness: loading the single line `11 ANNA OTTO` and querying the
three shapes — present (`11` → the stored list), valid-but-absent (`12` →
404), and invalid (`13` skips digit 2 → 400). -/
theorem c2_witness :
    loadPatterns [("11 ANNA OTTO").data] =
      some [((("11").data), [("ANNA").data, ("OTTO").data])] ∧
    resolveExact [((("11").data), [("ANNA").data, ("OTTO").data])]
      (("11").data) = .ok [("ANNA").data, ("OTTO").data] ∧
    resolveExact [((("11").data), [("ANNA").data, ("OTTO").data])]
      (("12").data) = .error 404 ∧
    resolveExact [((("11").data), [("ANNA").data, ("OTTO").data])]
      (("13").data) = .error 400 := by
  refine ⟨by decide, ?_, ?_, ?_⟩
  · exact (c2_theorem [("11 ANNA OTTO").data] _ (by decide) (("11").data)).2.2
      (by rw [specShapeInvalid]; push_neg
          exact ⟨by decide, by decide, by decide, by decide⟩)
      [("ANNA").data, ("OTTO").data] (by decide)
  · exact (c2_theorem [("11 ANNA OTTO").data] _ (by decide) (("12").data)).2.1
      (by rw [specShapeInvalid]; push_neg
          exact ⟨by decide, by decide, by decide, by decide⟩)
      (by decide)
  · exact (c2_theorem [("11 ANNA OTTO").data] _ (by decide) (("13").data)).1
      (Or.inr (Or.inr (Or.inr (by decide))))

/-! ## Claim C10 -/

/-- C10, counterexample: a line consisting of a signature, a single space and
nothing else does *not* load to an empty word list — `line.strip()` removes
the trailing space, the split yields a single field, and the unpacking
raises `ValueError`, failing the whole load. -/
theorem c10_counterexample : loadPatterns [("123 \n").data] = none := by decide

/-- C10, amended: the loader never produces an empty word list (every
successfully loaded entry is nonempty; a signature-space-only line fails the
load).  Nevertheless the handler logic is as claimed: for any in-memory index
in which some signature is mapped to the empty list, an exact query for that
(well-formed) signature draws HTTP 404 rather than a successful empty
response, because presence is tested by the truthiness of the stored
list. -/
theorem c10_theorem :
    (∀ (lines : List (List Char)) (idx : List (List Char × List (List Char))),
      loadPatterns lines = some idx → ∀ e ∈ idx, e.2 ≠ []) ∧
    (∀ (idx : List (List Char × List (List Char))) (s : List Char),
      validate_pattern s = true → pyDictGet idx s = some [] →
        resolveExact idx s = .error 404) := by
  refine ⟨loadPatterns_values_ne_nil, ?_⟩
  intro idx s hv hsome
  rw [resolveExact, if_neg (by rw [hv]; simp), hsome]

/-- C10, witness: an index mapping `11` to the empty list (built directly,
since the loader cannot produce one) yields 404 on the exact query `11`. -/
theorem c10_witness :
    validate_pattern (("11").data) = true ∧
    pyDictGet [((("11").data), ([] : List (List Char)))] (("11").data) =
      some [] ∧
    resolveExact [((("11").data), ([] : List (List Char)))] (("11").data) =
      .error 404 :=
  ⟨by decide, by decide, c10_theorem.2 _ _ (by decide) (by decide)⟩

/-! ## Claim C3 -/

theorem matches_partial_cons (c d : Char) (w q : List Char) :
    matches_partial_word (c :: w) (d :: q) =
      ((decide (d = '_') || decide (c = d)) && matches_partial_word w q) := by
  rw [matches_partial_word, matches_partial_word]
  by_cases hl : w.length = q.length
  · rw [if_neg (by simp [hl]), if_neg (by simp [hl])]
    rfl
  · rw [if_pos (by simp [hl]), if_pos (by simp [hl])]
    simp

theorem matches_partial_iff :
    ∀ (word q : List Char), matches_partial_word word q = true ↔
      (word.length = q.length ∧
        ∀ (i : Nat) (c d : Char), List.get? word i = some c →
          List.get? q i = some d → ¬ d = '_' → c = d) := by
  intro word
  induction word with
  | nil =>
    intro q
    cases q with
    | nil =>
      constructor
      · intro _
        exact ⟨rfl, by intro i c d hc _ _; cases i <;> cases hc⟩
      · intro _; rfl
    | cons d q' =>
      constructor
      · intro h
        rw [matches_partial_word, if_pos (by simp)] at h
        cases h
      · rintro ⟨h, _⟩
        simp at h
  | cons c w ih =>
    intro q
    cases q with
    | nil =>
      constructor
      · intro h
        rw [matches_partial_word, if_pos (by simp)] at h
        cases h
      · rintro ⟨h, _⟩
        simp at h
    | cons d q' =>
      rw [matches_partial_cons, Bool.and_eq_true, Bool.or_eq_true, ih q']
      constructor
      · rintro ⟨hh, hlen, hpos⟩
        refine ⟨by simp [hlen], ?_⟩
        intro i a b ha hb hbu
        cases i with
        | zero =>
          cases Option.some.inj ha
          cases Option.some.inj hb
          rcases hh with hu | he
          · exact absurd (of_decide_eq_true hu) hbu
          · exact of_decide_eq_true he
        | succ n =>
          exact hpos n a b ha hb hbu
      · rintro ⟨hlen, hpos⟩
        refine ⟨?_, by simpa using hlen, ?_⟩
        · by_cases hdu : d = '_'
          · exact Or.inl (decide_eq_true hdu)
          · exact Or.inr (decide_eq_true (hpos 0 c d rfl rfl hdu))
        · intro n a b ha hb hbu
          exact hpos (n + 1) a b ha hb hbu

theorem validate_partial_true_iff (q : List Char) :
    validate_partial_word q = true ↔
      1 ≤ q.length ∧ q.length ≤ 20 ∧
      (∀ c ∈ q, c.isAlpha = true ∨ c = '_') ∧
      ∃ c ∈ q, c.isAlpha = true := by
  rw [validate_partial_word]
  by_cases h1 : q.isEmpty = true
  · rw [if_pos (by simp [h1])]
    have hq : q = [] := List.isEmpty_iff.mp h1
    subst hq
    constructor
    · intro h; cases h
    · rintro ⟨h, _⟩; simp at h
  · by_cases h2 : 20 < q.length
    · rw [if_pos (by simp [h2])]
      constructor
      · intro h; cases h
      · rintro ⟨_, h, _⟩; omega
    · rw [if_neg (by simp [h1, h2])]
      by_cases h3 : (q.all fun c => c.isAlpha || decide (c = '_')) = true
      · rw [if_neg (by rw [h3]; simp)]
        by_cases h4 : (q.all fun c => decide (c = '_')) = true
        · rw [if_pos h4]
          constructor
          · intro h; cases h
          · rintro ⟨_, _, _, c, hc, hca⟩
            rw [List.all_eq_true] at h4
            have := of_decide_eq_true (h4 c hc)
            rw [this] at hca
            cases hca
        · rw [if_neg h4]
          have hlen1 : 1 ≤ q.length := by
            cases q with
            | nil => simp at h1
            | cons x t => simp
          have hall : ∀ c ∈ q, c.isAlpha = true ∨ c = '_' := by
            rw [List.all_eq_true] at h3
            intro c hc
            have h' := h3 c hc
            simp only [Bool.or_eq_true] at h'
            rcases h' with h | h
            · exact Or.inl h
            · exact Or.inr (of_decide_eq_true h)
          have hex : ∃ c ∈ q, c.isAlpha = true := by
            rw [List.all_eq_true] at h4
            push_neg at h4
            rcases h4 with ⟨c, hc, hcu⟩
            rcases hall c hc with h | h
            · exact ⟨c, hc, h⟩
            · exact absurd (decide_eq_true h) hcu
          constructor
          · intro _
            exact ⟨hlen1, by omega, hall, hex⟩
          · intro _
            rfl
      · rw [if_pos (by revert h3; cases (q.all fun c => c.isAlpha || decide (c = '_')) <;> simp)]
        constructor
        · intro h; cases h
        · rintro ⟨_, _, hall, _⟩
          exfalso
          refine h3 (List.all_eq_true.mpr fun c hc => ?_)
          rcases hall c hc with h | h
          · simp [h]
          · simp [h]

/-- The deduplicated, sorted list of index words matching an (uppercased)
partial pattern: the successful response body of `predict_partial`. -/
def matchList (idx : List (List Char × List (List Char))) (up : List Char) :
    List (List Char) :=
  pySortedSet (idx.flatMap fun e => e.2.filter fun w => matches_partial_word w up)

/-- C3: partial-word queries.  After uppercasing, validation accepts exactly
the strings of letters and underscores of length 1–20 with at least one
letter; an invalid input draws HTTP 400; for a valid input the result set
contains exactly the index words of the pattern's length agreeing with every
non-wildcard position, deduplicated and sorted lexicographically, and an
empty result set draws HTTP 404 rather than a successful empty list. -/
theorem c3_theorem (idx : List (List Char × List (List Char)))
    (pw : List Char) :
    (validate_partial_word (pyUpper pw) = true ↔
      1 ≤ pw.length ∧ pw.length ≤ 20 ∧
      (∀ c ∈ pyUpper pw, c.isAlpha = true ∨ c = '_') ∧
      ∃ c ∈ pyUpper pw, c.isAlpha = true) ∧
    (validate_partial_word (pyUpper pw) = false →
      predict_partial_word idx pw = .error 400) ∧
    (validate_partial_word (pyUpper pw) = true →
      (∀ w, w ∈ matchList idx (pyUpper pw) ↔
        ((∃ e ∈ idx, w ∈ e.2) ∧ w.length = pw.length ∧
          ∀ (i : Nat) (c d : Char), List.get? w i = some c →
            List.get? (pyUpper pw) i = some d → ¬ d = '_' → c = d)) ∧
      (matchList idx (pyUpper pw)).Pairwise (fun a b => strLe a b = true) ∧
      (matchList idx (pyUpper pw)).Nodup ∧
      (matchList idx (pyUpper pw) = [] →
        predict_partial_word idx pw = .error 404) ∧
      (matchList idx (pyUpper pw) ≠ [] →
        predict_partial_word idx pw = .ok (matchList idx (pyUpper pw)))) := by
  have hup : (pyUpper pw).length = pw.length := by
    rw [pyUpper, List.length_map]
  refine ⟨by rw [validate_partial_true_iff, hup], ?_, ?_⟩
  · intro h
    rw [predict_partial_word, if_pos (by rw [h]; rfl)]
  · intro h
    refine ⟨?_, sorted_pySortedSet _, nodup_pySortedSet _, ?_, ?_⟩
    · intro w
      rw [matchList, mem_pySortedSet, List.mem_flatMap]
      constructor
      · rintro ⟨e, he, hw⟩
        rcases List.mem_filter.mp hw with ⟨hwe, hm⟩
        rcases (matches_partial_iff w (pyUpper pw)).mp hm with ⟨hlen, hpos⟩
        exact ⟨⟨e, he, hwe⟩, by omega, hpos⟩
      · rintro ⟨⟨e, he, hwe⟩, hlen, hpos⟩
        refine ⟨e, he, List.mem_filter.mpr ⟨hwe, ?_⟩⟩
        exact (matches_partial_iff w (pyUpper pw)).mpr ⟨by omega, hpos⟩
    · intro hms
      rw [predict_partial_word, if_neg (by rw [h]; simp)]
      rw [matchList] at hms
      rw [if_pos (by rw [hms]; rfl)]
    · intro hms
      rw [predict_partial_word, if_neg (by rw [h]; simp)]
      rw [matchList] at hms
      rw [if_neg (by
        cases hE : (pySortedSet (idx.flatMap fun e =>
            e.2.filter fun w => matches_partial_word w (pyUpper pw))).isEmpty
        · simp
        · exact absurd (List.isEmpty_iff.mp hE) hms)]
      rw [matchList]

/-- C3, witness: querying `h_ll_` against an index containing `HELLO`,
`WORLD`, `HALLS` and `HILLS` returns `HALLS, HELLO, HILLS` sorted. -/
theorem c3_witness :
    validate_partial_word (pyUpper (("h_ll_").data)) = true ∧
    predict_partial_word
        [((("12334").data), [("HELLO").data, ("WORLD").data]),
         ((("12113").data), [("HALLS").data, ("HILLS").data])]
        (("h_ll_").data) =
      .ok [("HALLS").data, ("HELLO").data, ("HILLS").data] := by
  refine ⟨by decide, ?_⟩
  have h := (c3_theorem
    [((("12334").data), [("HELLO").data, ("WORLD").data]),
     ((("12113").data), [("HALLS").data, ("HILLS").data])]
    (("h_ll_").data)).2.2 (by decide)
  have h2 := h.2.2.2.2 (by decide)
  exact h2.trans (congrArg Except.ok (by decide))
